import Mathlib

/-!
Shallow embedding of `server/modules/authenticator/MySQLAuth/dbusers.c`,
the MySQL authenticator user catalog of a database proxy, together with
proofs about the embedded functions.

Strings from the C code are modelled as `List Char`, byte buffers as
`List Nat` (each entry a byte value, reduced `% 256` where the code
truncates), and `NULL`-able C strings as `Option (List Char)`.
External helpers that are not part of this translation unit
(`gw_sha1_str`, `gw_hex2bin`, `gw_str_xor`, POSIX `regexec`) are modelled
from the specification, as noted on each definition.
-/

namespace Dbusers

set_option maxRecDepth 100000

/-! ### Bytes, hex and SHA1

`gw_sha1_str` / `gw_sha1_2_str` are modelled from the spec: they compute
the SHA1 digest of their input (for `gw_sha1_2_str`, of the concatenation
of the two inputs).  SHA1 itself is implemented below on byte lists, with
32-bit words represented as `Nat` reduced `% 2 ^ 32`.
-/

/-- Left-rotation of a 32-bit word held in a `Nat`. -/
def rotl (k n : Nat) : Nat := (n * 2 ^ k + n / 2 ^ (32 - k)) % 2 ^ 32

/-- SHA1 round constant for round `i`. -/
def sha1K (i : Nat) : Nat :=
  if i < 20 then 0x5A827999 else if i < 40 then 0x6ED9EBA1
  else if i < 60 then 0x8F1BBCDC else 0xCA62C1D6

/-- SHA1 round mixing function for round `i`. -/
def sha1F (i b c d : Nat) : Nat :=
  if i < 20 then (b &&& c) ||| ((b ^^^ 0xFFFFFFFF) &&& d)
  else if i < 40 then b ^^^ c ^^^ d
  else if i < 60 then (b &&& c) ||| (b &&& d) ||| (c &&& d)
  else b ^^^ c ^^^ d

/-- Group a byte list into big-endian 32-bit words. -/
def toWords : List Nat → List Nat
  | b1 :: b2 :: b3 :: b4 :: rest =>
    ((((b1 % 256) * 256 + b2 % 256) * 256 + b3 % 256) * 256 + b4 % 256) :: toWords rest
  | _ => []

/-- Extend the 16-word message schedule by `n` further words. -/
def sha1ExpandGo (w : List Nat) : Nat → List Nat
  | 0 => w
  | n + 1 =>
    let m := w.length
    sha1ExpandGo
      (w ++ [rotl 1 ((w.getD (m - 3) 0 ^^^ w.getD (m - 8) 0) ^^^
        (w.getD (m - 14) 0 ^^^ w.getD (m - 16) 0))]) n

/-- One SHA1 compression step over a 64-byte chunk. -/
def sha1Compress (h : Nat × Nat × Nat × Nat × Nat) (chunk : List Nat) :
    Nat × Nat × Nat × Nat × Nat :=
  let w := sha1ExpandGo (toWords chunk) 64
  let s := w.enum.foldl
    (fun (s : Nat × Nat × Nat × Nat × Nat) iw =>
      let t := (rotl 5 s.1 + sha1F iw.1 s.2.1 s.2.2.1 s.2.2.2.1 + s.2.2.2.2 +
        sha1K iw.1 + iw.2) % 2 ^ 32
      (t, s.1, rotl 30 s.2.1, s.2.2.1, s.2.2.2.1)) (h.1, h.2.1, h.2.2.1, h.2.2.2.1, h.2.2.2.2)
  ((h.1 + s.1) % 2 ^ 32, (h.2.1 + s.2.1) % 2 ^ 32, (h.2.2.1 + s.2.2.1) % 2 ^ 32,
    (h.2.2.2.1 + s.2.2.2.1) % 2 ^ 32, (h.2.2.2.2 + s.2.2.2.2) % 2 ^ 32)

/-- A `Nat` as 8 big-endian bytes. -/
def be64 (n : Nat) : List Nat :=
  [n / 2 ^ 56 % 256, n / 2 ^ 48 % 256, n / 2 ^ 40 % 256, n / 2 ^ 32 % 256,
   n / 2 ^ 24 % 256, n / 2 ^ 16 % 256, n / 2 ^ 8 % 256, n % 256]

/-- A 32-bit word as 4 big-endian bytes. -/
def be32 (n : Nat) : List Nat := [n / 2 ^ 24 % 256, n / 2 ^ 16 % 256, n / 2 ^ 8 % 256, n % 256]

/-- SHA1 message padding: `0x80`, zeros to 56 mod 64, then the bit length. -/
def sha1Pad (msg : List Nat) : List Nat :=
  msg ++ 0x80 :: (List.replicate ((55 + 64 - msg.length % 64) % 64) 0 ++ be64 (8 * msg.length))

/-- Split a padded message into 64-byte chunks (fuel-driven). -/
def chunksGo : Nat → List Nat → List (List Nat)
  | 0, _ => []
  | _, [] => []
  | fuel + 1, l => l.take 64 :: chunksGo fuel (l.drop 64)

/-- SHA1 digest of a byte list, as 20 bytes.  Models `gw_sha1_str`
(and, applied to a concatenation, `gw_sha1_2_str`). -/
def sha1 (msg : List Nat) : List Nat :=
  let padded := sha1Pad msg
  let hs := (chunksGo padded.length padded).foldl sha1Compress
    (0x67452301, 0xEFCDAB89, 0x98BADCFE, 0x10325476, 0xC3D2E1F0)
  be32 hs.1 ++ be32 hs.2.1 ++ be32 hs.2.2.1 ++ be32 hs.2.2.2.1 ++ be32 hs.2.2.2.2

theorem sha1_length (msg : List Nat) : (sha1 msg).length = 20 := by
  simp [sha1, be32]

theorem be32_lt (n : Nat) : ∀ x ∈ be32 n, x < 256 := by
  intro x hx
  simp only [be32, List.mem_cons, List.not_mem_nil, or_false] at hx
  rcases hx with h | h | h | h <;> subst h <;> exact Nat.mod_lt _ (by norm_num)

theorem sha1_lt (msg : List Nat) : ∀ b ∈ sha1 msg, b < 256 := by
  intro b hb
  simp only [sha1, List.mem_append] at hb
  rcases hb with (((h | h) | h) | h) | h <;> exact be32_lt _ _ h

/-- Value of a hex digit character; non-hex characters give 0.
Models the digit conversion inside `gw_hex2bin`. -/
def hexVal (c : Char) : Nat :=
  if '0' ≤ c ∧ c ≤ '9' then c.toNat - 48
  else if 'a' ≤ c ∧ c ≤ 'f' then c.toNat - 87
  else if 'A' ≤ c ∧ c ≤ 'F' then c.toNat - 55
  else 0

/-- Lower-case hex digit character for a value below 16. -/
def hexDigitChar (n : Nat) : Char :=
  if n < 10 then Char.ofNat (48 + n) else Char.ofNat (87 + n)

/-- Lower-case hex encoding of a byte list (as stored in `mysql.user.password`). -/
def hexEncode : List Nat → List Char
  | [] => []
  | b :: t => hexDigitChar (b / 16 % 16) :: hexDigitChar (b % 16) :: hexEncode t

/-- Modelled from the spec: `gw_hex2bin` converts a hexadecimal string to
binary, one byte per pair of digits. -/
def gw_hex2bin : List Char → List Nat
  | c1 :: c2 :: rest => (16 * hexVal c1 + hexVal c2) :: gw_hex2bin rest
  | _ => []

theorem hexVal_hexDigitChar : ∀ n, n < 16 → hexVal (hexDigitChar n) = n := by decide

theorem gw_hex2bin_hexEncode : ∀ bs : List Nat, (∀ b ∈ bs, b < 256) →
    gw_hex2bin (hexEncode bs) = bs := by
  intro bs
  induction bs with
  | nil => intro _; rfl
  | cons b t ih =>
    intro h
    have hb : b < 256 := h b (by simp)
    have h1 : hexVal (hexDigitChar (b / 16 % 16)) = b / 16 % 16 :=
      hexVal_hexDigitChar _ (Nat.mod_lt _ (by norm_num))
    have h2 : hexVal (hexDigitChar (b % 16)) = b % 16 :=
      hexVal_hexDigitChar _ (Nat.mod_lt _ (by norm_num))
    have hdiv : b / 16 % 16 = b / 16 := Nat.mod_eq_of_lt (by omega)
    simp only [hexEncode, gw_hex2bin]
    rw [h1, h2, hdiv]
    refine List.cons_eq_cons.mpr ⟨by omega, ?_⟩
    exact ih fun x hx => h x (by simp [hx])

/-- The 20-byte zero-initialised `stored_token` buffer of `check_password`
after `gw_hex2bin` wrote the converted prefix into it. -/
def pad20 (l : List Nat) : List Nat := (l ++ List.replicate 20 0).take 20

/-- Embedding of `check_password` (dbusers.c).  `junk` is the initial
content of the stack buffer `step2`, which the C code leaves
uninitialised: `gw_str_xor` overwrites only the first `token.length`
bytes of it.  Returns the authentication verdict together with the 20
bytes copied into `phase2_scramble`. -/
def check_password (junk : List Nat) (output : List Char) (token : List Nat)
    (scramble : List Nat) : Bool × List Nat :=
  let stored_token := pad20 (if output = [] then [] else gw_hex2bin output)
  let step1 := sha1 (scramble ++ stored_token)
  let step2 := (List.zipWith (fun a b => a ^^^ b) token step1 ++ junk.drop token.length).take 20
  let final_step := sha1 step2
  (final_step.take 20 == stored_token, step2)

/-! ### The grant query (`get_new_users_query`) -/

/-- Normal password column name (`MYSQL_PASSWORD`). -/
def MYSQL_PASSWORD : String := "password"

/-- MySQL 5.7 password column name (`MYSQL57_PASSWORD`). -/
def MYSQL57_PASSWORD : String := "authentication_string"

/-- Does `needle` occur inside the second list?  Models `strstr ≠ NULL`. -/
def strstrB (needle : List Char) : List Char → Bool
  | [] => needle.isPrefixOf []
  | c :: t => needle.isPrefixOf (c :: t) || strstrB needle t

/-- The `NEW_LOAD_DBUSERS_QUERY` format string with its two pairs of `%s`
holes substituted; the duplicated spaces come from the line-spliced C
string literal. -/
def NEW_LOAD_DBUSERS_QUERY (password withRoot : String) : String :=
  "SELECT u.user, u.host, d.db, u.select_priv, u." ++ password ++
  "     FROM mysql.user AS u LEFT JOIN mysql.db AS d     ON (u.user = d.user AND u.host = d.host) " ++
  withRoot ++
  "     UNION     SELECT u.user, u.host, t.db, u.select_priv, u." ++ password ++
  "     FROM mysql.user AS u LEFT JOIN mysql.tables_priv AS t     ON (u.user = t.user AND u.host = t.host) " ++
  withRoot

/-- Embedding of `get_new_users_query` (dbusers.c). -/
def get_new_users_query (server_version : String) (include_root : Bool) : String :=
  let password := if strstrB "5.7.".toList server_version.toList then MYSQL57_PASSWORD
    else MYSQL_PASSWORD
  let with_root := if include_root then "WHERE u.user NOT IN ('root')" else ""
  NEW_LOAD_DBUSERS_QUERY password with_root

/-! ### Host matching -/

/-- Embedding of `host_matches_singlechar_wildcard` (dbusers.c): walk both
strings until either ends, failing on a mismatch at a position where the
pattern is not `_`. -/
def host_matches_singlechar_wildcard : List Char → List Char → Bool
  | u :: us, w :: ws =>
    if u ≠ w ∧ w ≠ '_' then false else host_matches_singlechar_wildcard us ws
  | _, _ => true

/-! ### Supporting lemmas for `check_password` -/

theorem take_append_of_length (l r : List Nat) (h : l.length = 20) : (l ++ r).take 20 = l := by
  rw [← h, List.take_left]

theorem pad20_eq (l : List Nat) (h : l.length = 20) : pad20 l = l :=
  take_append_of_length _ _ h

theorem zipWith_xor_cancel : ∀ a b : List Nat, a.length = b.length →
    List.zipWith (fun x y => x ^^^ y) (List.zipWith (fun x y => x ^^^ y) a b) b = a := by
  intro a
  induction a with
  | nil => intro b _; simp
  | cons x t ih =>
    intro b h
    cases b with
    | nil => simp at h
    | cons y s =>
      simp only [List.zipWith_cons_cons]
      rw [ih s (by simpa using h)]
      have hx : x ^^^ y ^^^ y = x := by
        rw [Nat.xor_assoc, Nat.xor_self, Nat.xor_zero]
      rw [hx]

theorem sha1_ne_nil (msg : List Nat) : sha1 msg ≠ [] := by
  intro h
  have := sha1_length msg
  rw [h] at this
  simp at this

theorem hexEncode_ne_nil (l : List Nat) (h : l ≠ []) : hexEncode l ≠ [] := by
  cases l with
  | nil => exact absurd rfl h
  | cons b t => simp [hexEncode]

theorem sha1_take (msg : List Nat) : (sha1 msg).take 20 = sha1 msg := by
  rw [← sha1_length msg, List.take_length]

/-- C2: for any password `P`, 20-byte scramble `S` and any initial content
of the uninitialised `step2` buffer, `check_password` applied to the
stored hash `hex(SHA1(SHA1 P))` and the client token
`SHA1 P XOR SHA1(S ++ SHA1(SHA1 P))` authenticates and emits `SHA1 P` as
the phase-2 scramble. -/
theorem check_password_accepts_valid_token (P S junk : List Nat) :
    check_password junk (hexEncode (sha1 (sha1 P)))
      (List.zipWith (fun a b => a ^^^ b) (sha1 P) (sha1 (S ++ sha1 (sha1 P)))) S
      = (true, sha1 P) := by
  have h2 : (sha1 (sha1 P)).length = 20 := sha1_length _
  have hne : hexEncode (sha1 (sha1 P)) ≠ [] := hexEncode_ne_nil _ (sha1_ne_nil _)
  have hbin : gw_hex2bin (hexEncode (sha1 (sha1 P))) = sha1 (sha1 P) :=
    gw_hex2bin_hexEncode _ (sha1_lt _)
  have hcancel :
      List.zipWith (fun x y => x ^^^ y)
        (List.zipWith (fun x y => x ^^^ y) (sha1 P) (sha1 (S ++ sha1 (sha1 P))))
        (sha1 (S ++ sha1 (sha1 P))) = sha1 P :=
    zipWith_xor_cancel _ _ (by rw [sha1_length, sha1_length])
  simp only [check_password, if_neg hne, hbin, pad20_eq _ h2, hcancel,
    take_append_of_length _ _ (sha1_length P), sha1_take]
  simp

/-- C6 (code evaluation at the failing input): with an empty `stored_hex`
and an empty client token, `gw_str_xor` writes nothing, so `step2` keeps
the uninitialised buffer content (here taken to be 20 zero bytes); the
code then compares `SHA1` of that content against 20 zero bytes and
answers `false`, not `true` as claimed for a passwordless account. -/
theorem check_password_empty_token_rejects :
    check_password (List.replicate 20 0) [] [] (List.replicate 20 0)
      = (false, List.replicate 20 0) := by decide

/-- C1 (code evaluation at the failing input): with root not enabled
(`include_root = false`) the grant query contains no
`WHERE u.user NOT IN ('root')` clause, and with root enabled the clause
is present — the opposite of the claimed behaviour. -/
theorem get_new_users_query_root_filter_inverted :
    strstrB "WHERE u.user NOT IN ('root')".toList
        (get_new_users_query "10.2.6-MariaDB" false).toList = false ∧
    strstrB "WHERE u.user NOT IN ('root')".toList
        (get_new_users_query "10.2.6-MariaDB" true).toList = true := by decide

/-- C3 (counterexample): the client string `192.168.1.42` is accepted by
the pattern `192.168.1._` although the two strings have different
lengths, contradicting the claimed same-length characterisation. -/
theorem host_matches_singlechar_wildcard_length_counterexample :
    host_matches_singlechar_wildcard "192.168.1.42".toList "192.168.1._".toList = true ∧
    ("192.168.1.42".toList).length ≠ ("192.168.1._".toList).length := by decide

/-- C3 (amended): `host_matches_singlechar_wildcard C W` returns `true`
iff at every position up to the length of the shorter string, `W` holds
`_` or the bytes agree; the lengths themselves are never compared. -/
theorem host_matches_singlechar_wildcard_spec (C W : List Char) :
    host_matches_singlechar_wildcard C W
      = (C.zip W).all fun p => p.2 == '_' || p.1 == p.2 := by
  induction C generalizing W with
  | nil => cases W <;> rfl
  | cons c t ih =>
    cases W with
    | nil => rfl
    | cons w s =>
      by_cases hw : w = '_' <;> by_cases hc : c = w <;>
        simp [host_matches_singlechar_wildcard, hw, hc, ih]

/-! ### The hashtable key and its comparison function -/

/-- Embedding of the `MYSQL_USER_HOST` key: `user` and `resource` are
`NULL`-able C strings, `ipv4` is the 32-bit `sin_addr.s_addr` value, and
`hostname` is the fixed buffer holding a single-character-wildcard
pattern (empty when unused). -/
structure MYSQL_USER_HOST where
  user : Option (List Char)
  ipv4 : Nat
  netmask : Nat
  resource : Option (List Char)
  hostname : List Char

/-- The `s_addr` value of the dotted address `a.b.c.d` on a little-endian
host: the octets are stored in network order, so the first octet is the
least significant byte of the integer. -/
def ipv4enc (a b c d : Nat) : Nat := a + 256 * b + 65536 * c + 16777216 * d

/-- The numeric value of the address `a.b.c.d` with `a` most significant,
used to speak about its top bits. -/
def addrVal (a b c d : Nat) : Nat := ((a * 256 + b) * 256 + c) * 256 + d

/-- The top `k` bits of a 32-bit address value. -/
def topBits (k x : Nat) : Nat := x / 2 ^ (32 - k)

/-- Embedding of `uh_cmpfun` (dbusers.c).  `dbWild` stands for the POSIX
regex test performed when the stored resource contains `%` (the `%`
characters rewritten to `.*` and matched case-insensitively against the
client's resource); it is a parameter because `regcomp`/`regexec` are
external library calls. -/
def uh_cmpfun (dbWild : List Char → List Char → Bool) (hu1 hu2 : MYSQL_USER_HOST) : Int :=
  match hu1.user, hu2.user with
  | none, _ => 0
  | _, none => 0
  | some u1, some u2 =>
    let wildcard_host := hu2.hostname ≠ [] ∧ hu1.hostname ≠ []
    if u1 = u2 ∧
        ((wildcard_host ∧ host_matches_singlechar_wildcard hu1.hostname hu2.hostname = true) ∨
         (¬wildcard_host ∧ hu1.ipv4 = hu2.ipv4 ∧ hu1.netmask ≥ hu2.netmask)) then
      match hu1.resource with
      | none => 0
      | some r1 =>
        if r1 = [] then 0
        else
          match hu2.resource with
          | none => 1
          | some r2 =>
            if r2 = [] then 0
            else if r1 = r2 then 0
            else if r2.contains '%' then (if dbWild r2 r1 then 0 else 1)
            else 1
    else 1

/-- C4 (counterexample): the client key for address `10.0.0.5` (netmask
32) does not match the stored numeric-prefix row `10.0.0.0/24` under
`uh_cmpfun`, although the top 24 bits of the client address equal the
stored prefix. -/
theorem uh_cmpfun_prefix_counterexample :
    uh_cmpfun (fun _ _ => false)
      { user := some "u".toList, ipv4 := ipv4enc 10 0 0 5, netmask := 32,
        resource := none, hostname := [] }
      { user := some "u".toList, ipv4 := ipv4enc 10 0 0 0, netmask := 24,
        resource := some [], hostname := [] } ≠ 0 ∧
    topBits 24 (addrVal 10 0 0 5) = topBits 24 (addrVal 10 0 0 0) := by decide

/-- C4 (amended): for a client key with netmask 32 and a stored numeric
row, both with empty hostname buffers, the host part of `uh_cmpfun`
admits iff the two 32-bit addresses are exactly equal — the stored
address already has its low `32 − k` bits zeroed, and the top-`k`-bits
semantics only arises because the caller retries the lookup with
progressively masked client addresses. -/
theorem uh_cmpfun_host_match_is_exact_equality
    (dbWild : List Char → List Char → Bool) (u : List Char) (C P k : Nat) (r : Option (List Char))
    (hk : k ≤ 32) :
    (uh_cmpfun dbWild
      { user := some u, ipv4 := C, netmask := 32, resource := none, hostname := [] }
      { user := some u, ipv4 := P, netmask := k, resource := r, hostname := [] } = 0)
      ↔ C = P := by
  simp [uh_cmpfun, hk]

/-- C4 (witness). -/
theorem uh_cmpfun_host_match_is_exact_equality_witness :
    (24 ≤ 32) ∧
    ((uh_cmpfun (fun _ _ => false)
      { user := some "u".toList, ipv4 := ipv4enc 10 0 0 0, netmask := 32,
        resource := none, hostname := [] }
      { user := some "u".toList, ipv4 := ipv4enc 10 0 0 0, netmask := 24,
        resource := some [], hostname := [] } = 0) ↔ ipv4enc 10 0 0 0 = ipv4enc 10 0 0 0) :=
  ⟨by decide,
    uh_cmpfun_host_match_is_exact_equality (fun _ _ => false) "u".toList
      (ipv4enc 10 0 0 0) (ipv4enc 10 0 0 0) 24 (some []) (by decide)⟩

/-- C5: when the host part matches (same user, empty hostname buffers,
equal addresses, client netmask at least the stored one) and the client
requests a non-empty database `d`, `uh_cmpfun` admits iff the stored
resource is the empty string (global grant) or equals `d`, provided the
stored resource has no `%`; a stored `NULL` resource denies; and a client
with a `NULL` or empty resource is admitted regardless of the stored
resource. -/
theorem uh_cmpfun_database_rule
    (dbWild : List Char → List Char → Bool) (u : List Char) (ip n1 n2 : Nat)
    (hn : n1 ≥ n2) (d : List Char) (hd : d ≠ []) :
    (∀ r : List Char, ¬ r.contains '%' = true →
      ((uh_cmpfun dbWild
        { user := some u, ipv4 := ip, netmask := n1, resource := some d, hostname := [] }
        { user := some u, ipv4 := ip, netmask := n2, resource := some r, hostname := [] } = 0)
        ↔ (r = [] ∨ r = d))) ∧
    uh_cmpfun dbWild
      { user := some u, ipv4 := ip, netmask := n1, resource := some d, hostname := [] }
      { user := some u, ipv4 := ip, netmask := n2, resource := none, hostname := [] } = 1 ∧
    (∀ r2 : Option (List Char),
      uh_cmpfun dbWild
        { user := some u, ipv4 := ip, netmask := n1, resource := none, hostname := [] }
        { user := some u, ipv4 := ip, netmask := n2, resource := r2, hostname := [] } = 0 ∧
      uh_cmpfun dbWild
        { user := some u, ipv4 := ip, netmask := n1, resource := some [], hostname := [] }
        { user := some u, ipv4 := ip, netmask := n2, resource := r2, hostname := [] } = 0) := by
  refine ⟨?_, ?_, ?_⟩
  · intro r hr
    by_cases hre : r = []
    · simp [uh_cmpfun, hn, hd, hre]
    · by_cases hrd : d = r
      · simp [uh_cmpfun, hn, hd, hre, hrd]
      · have hmem : ¬ '%' ∈ r := by
          intro hm
          exact hr (by simpa using hm)
        simp [uh_cmpfun, hn, hd, hre, hrd, hmem]
        intro h
        exact absurd h.symm hrd
  · simp [uh_cmpfun, hn, hd]
  · intro r2
    cases r2 <;> simp [uh_cmpfun, hn]

/-! ### Persistence: `add_mysql_user` and `dump_user_cb`

`dbusers_save` and `dbusers_load` both call `transfer_table_contents`,
which replays every row of the source SQLite `users` table through
`dump_user_cb` into the destination.  A row of that table is modelled as
`SqliteUserRow`; the `db` and `password` columns are `NULL`-able, the
`anydb` column stores `"1"` or `"0"`. -/

/-- One row of the SQLite `users` table. -/
structure SqliteUserRow where
  user : List Char
  host : List Char
  db : Option (List Char)
  anydb : Bool
  pw : Option (List Char)
deriving DecidableEq

/-- The leading-`*` strip performed by `add_mysql_user` on the password. -/
def stripLeadStar : List Char → List Char
  | '*' :: t => t
  | l => l

/-- Embedding of `add_mysql_user` (dbusers.c): the row inserted into the
SQLite `users` table.  A `NULL` or empty `db`/`pw` argument is stored as
SQL `NULL` (the code substitutes `null_token`), and a password beginning
with `*` loses that character. -/
def add_mysql_user (user host : List Char) (db : Option (List Char)) (anydb : Bool)
    (pw : Option (List Char)) : SqliteUserRow :=
  { user := user, host := host,
    db := match db with
      | some d => if d = [] then none else some d
      | none => none,
    anydb := anydb,
    pw := match pw with
      | some p => if p = [] then none else some (stripLeadStar p)
      | none => none }

/-- Embedding of `dump_user_cb` (dbusers.c): the callback receives the
columns of one source row as C strings (the `anydb` column as the text
`"1"` or `"0"`) and inserts them into the destination with
`add_mysql_user`; the fourth argument is the C truth value of
`row[3] && strcmp(row[3], "1")`. -/
def dump_user_cb (r : SqliteUserRow) : SqliteUserRow :=
  let row3 : Option (List Char) := some (if r.anydb then ['1'] else ['0'])
  let anydbArg := match row3 with
    | none => false
    | some s => decide (s ≠ ['1'])
  add_mysql_user r.user r.host r.db anydbArg r.pw

/-- A row is representable when it can occur in a table built by
`add_mysql_user`: `db` and `pw` are `NULL` or non-empty, and `pw` does
not begin with `*` (the strip already happened on insertion). -/
def representable (r : SqliteUserRow) : Bool :=
  (match r.db with
    | none => true
    | some d => decide (d ≠ [])) &&
  (match r.pw with
    | none => true
    | some p => decide (p ≠ []) && decide (p.headD ' ' ≠ '*'))

/-- C7: a save followed by a load replays every representable row twice
through `dump_user_cb`/`add_mysql_user` (once into the file, once back
into memory), and this double replay is the identity — in particular the
`anydb` flag and the password survive unchanged.  (Each single replay
negates `anydb`, because `dump_user_cb` passes `strcmp(row[3], "1")`
rather than `strcmp(row[3], "1") == 0`, but save-then-load applies the
negation twice.) -/
theorem dump_user_cb_save_load_roundtrip (rows : List SqliteUserRow)
    (h : ∀ r ∈ rows, representable r = true) :
    (rows.map dump_user_cb).map dump_user_cb = rows := by
  induction rows with
  | nil => rfl
  | cons r t ih =>
    have hr : representable r = true := h r (by simp)
    have ht : (t.map dump_user_cb).map dump_user_cb = t := ih fun x hx => h x (by simp [hx])
    simp only [List.map_cons, ht, List.cons_eq_cons]
    refine ⟨?_, trivial⟩
    obtain ⟨ru, rh, rdb, ra, rpw⟩ := r
    simp only [representable, Bool.and_eq_true] at hr
    obtain ⟨hdb, hpw⟩ := hr
    cases rdb with
    | none =>
      cases rpw with
      | none => cases ra <;> rfl
      | some p =>
        simp only [decide_eq_true_eq, Bool.and_eq_true] at hpw
        obtain ⟨hp1, hp2⟩ := hpw
        cases p with
        | nil => exact absurd rfl hp1
        | cons c q =>
          have hc : c ≠ '*' := by simpa using hp2
          cases ra <;>
            simp [dump_user_cb, add_mysql_user, stripLeadStar, hc]
    | some d =>
      simp only [decide_eq_true_eq] at hdb
      cases rpw with
      | none => cases ra <;> simp [dump_user_cb, add_mysql_user, hdb]
      | some p =>
        simp only [decide_eq_true_eq, Bool.and_eq_true] at hpw
        obtain ⟨hp1, hp2⟩ := hpw
        cases p with
        | nil => exact absurd rfl hp1
        | cons c q =>
          have hc : c ≠ '*' := by simpa using hp2
          cases ra <;>
            simp [dump_user_cb, add_mysql_user, stripLeadStar, hdb, hc]

/-- C7 (witness). -/
theorem dump_user_cb_save_load_roundtrip_witness :
    (∀ r ∈ [({ user := "alice".toList, host := "%".toList, db := none, anydb := true,
               pw := some "badc0ffee".toList } : SqliteUserRow)], representable r = true) ∧
    (([({ user := "alice".toList, host := "%".toList, db := none, anydb := true,
          pw := some "badc0ffee".toList } : SqliteUserRow)].map dump_user_cb).map dump_user_cb
      = [{ user := "alice".toList, host := "%".toList, db := none, anydb := true,
           pw := some "badc0ffee".toList }]) :=
  ⟨by decide, dump_user_cb_save_load_roundtrip _ (by decide)⟩

/-! ### `replace_mysql_users` -/

/-- The listener state seen by `replace_mysql_users`: only the `users`
table pointer matters here; `α` is the type of a users table and `none`
models a `NULL` pointer. -/
structure ListenerState (α : Type) where
  users : Option α
deriving DecidableEq

/-- Outcome of `replace_mysql_users`: the listener after the call, the
returned count, and the table passed to `users_free` (if any). -/
structure ReplaceResult (α : Type) where
  listener : ListenerState α
  retval : Int
  freed : Option α
deriving DecidableEq

/-- Embedding of `replace_mysql_users` (dbusers.c) after a successful
`mysql_users_alloc`: `getUsersResult` is the value produced by
`get_users` for the freshly allocated table `newusers`.  On failure with
an existing table the new table is freed; on failure without one the
empty new table is installed; on success the new table is installed and
the old one freed. -/
def replace_mysql_users {α : Type} (getUsersResult : Int) (newusers : α)
    (st : ListenerState α) : ReplaceResult α :=
  if getUsersResult ≤ 0 then
    match st.users with
    | some _ => { listener := st, retval := getUsersResult, freed := some newusers }
    | none => { listener := { users := some newusers }, retval := getUsersResult, freed := none }
  else
    { listener := { users := some newusers }, retval := getUsersResult, freed := st.users }

/-- C9: if the load fails (`get_users ≤ 0`) and the listener already has
a users table, `replace_mysql_users` leaves the listener untouched and
frees exactly the freshly allocated table. -/
theorem replace_mysql_users_failure_keeps_old {α : Type} (st : ListenerState α) (old newusers : α)
    (i : Int) (hold : st.users = some old) (hi : i ≤ 0) :
    (replace_mysql_users i newusers st).listener = st ∧
    (replace_mysql_users i newusers st).freed = some newusers ∧
    (replace_mysql_users i newusers st).retval = i := by
  simp [replace_mysql_users, hi, hold]

/-- C9 (witness). -/
theorem replace_mysql_users_failure_keeps_old_witness :
    (({ users := some 7 } : ListenerState Nat).users = some 7) ∧ ((0 : Int) ≤ 0) ∧
    ((replace_mysql_users 0 9 ({ users := some 7 } : ListenerState Nat)).listener
        = { users := some 7 } ∧
      (replace_mysql_users 0 9 ({ users := some 7 } : ListenerState Nat)).freed = some 9 ∧
      (replace_mysql_users 0 9 ({ users := some 7 } : ListenerState Nat)).retval = 0) :=
  ⟨rfl, by decide, replace_mysql_users_failure_keeps_old _ 7 9 0 rfl (by decide)⟩

/-- C10: if the load fails and the listener has no users table yet, the
freshly allocated (empty) table is installed, so the listener ends up
with a non-`NULL` table while the returned count still reports the
failure. -/
theorem replace_mysql_users_failure_installs_empty {α : Type} (st : ListenerState α)
    (newusers : α) (i : Int) (hnone : st.users = none) (hi : i ≤ 0) :
    (replace_mysql_users i newusers st).listener.users = some newusers ∧
    (replace_mysql_users i newusers st).retval = i ∧
    (replace_mysql_users i newusers st).freed = none := by
  simp [replace_mysql_users, hi, hnone]

/-- C10 (witness). -/
theorem replace_mysql_users_failure_installs_empty_witness :
    (({ users := none } : ListenerState Nat).users = none) ∧ ((-1 : Int) ≤ 0) ∧
    ((replace_mysql_users (-1) 9 ({ users := none } : ListenerState Nat)).listener.users
        = some 9 ∧
      (replace_mysql_users (-1) 9 ({ users := none } : ListenerState Nat)).retval = -1 ∧
      (replace_mysql_users (-1) 9 ({ users := none } : ListenerState Nat)).freed = none) :=
  ⟨rfl, by decide, replace_mysql_users_failure_installs_empty _ 9 (-1) rfl (by decide)⟩

/-! ### Host canonicalisation: `merge_netmask` and `normalize_hostname`

`normalize_hostname` tokenises with `strtok_r(tmp, ".", ...)`, which
drops empty tokens; `merge_netmask` walks the `ip/mask` halves dot by
dot (keeping empty fields) with `strchr`.  Both are modelled below on
`List Char`. -/

/-- Split on `'.'`, keeping empty fields (the `strchr`-style walk).
Never returns `[]`. -/
def splitAll : List Char → List (List Char)
  | [] => [[]]
  | c :: t =>
    if c = '.' then [] :: splitAll t
    else match splitAll t with
      | [] => [[c]]
      | h :: r => (c :: h) :: r

/-- Join tokens with `'.'` separators. -/
def joinDots : List (List Char) → List Char
  | [] => []
  | [t] => t
  | t :: ts => t ++ '.' :: joinDots ts

/-- Split at the first `'/'`: the part before it and, when present, the
part after it.  Models `strchr(host, '/')`. -/
def breakSlash : List Char → List Char × Option (List Char)
  | [] => ([], none)
  | c :: t =>
    if c = '/' then ([], some t)
    else
      let p := breakSlash t
      (c :: p.1, p.2)

/-- Overwrite the first character with `'%'` (`*ip_token_loc = '%'`). -/
def setHeadPct : List Char → List Char
  | [] => []
  | _ :: t => '%' :: t

/-- The abort condition of one `merge_netmask` step: the mask token does
not start with `255` and the zero-over-zero rewrite does not apply. -/
def mergeTokFail (ipt mt : List Char) : Bool :=
  !(['2', '5', '5'].isPrefixOf mt) && !(mt.headD ' ' == '0' && ipt.headD ' ' == '0')

/-- The rewrite of one `merge_netmask` step: keep the ip token under a
`255` mask token, else overwrite its first character with `'%'`. -/
def mergeTokStep (ipt mt : List Char) : List Char :=
  if ['2', '5', '5'].isPrefixOf mt then ipt else setHeadPct ipt

/-- The token walk of `merge_netmask`: one step per `ip`/`mask` token
pair.  A mask token with prefix `255` is skipped; a mask token starting
`'0'` over an ip token starting `'0'` turns that character into `'%'`;
anything else aborts (second component `false`), as does an unequal
number of tokens.  Returns the (partially rewritten) ip tokens. -/
def mergeTokLoop : List (List Char) → List (List Char) → List Char → List Char →
    List (List Char) × Bool
  | [], [], ipt, mt =>
    if mergeTokFail ipt mt then ([ipt], false) else ([mergeTokStep ipt mt], true)
  | [], _ :: _, ipt, mt =>
    if mergeTokFail ipt mt then ([ipt], false) else ([mergeTokStep ipt mt], false)
  | i2 :: irest, [], ipt, mt =>
    if mergeTokFail ipt mt then (ipt :: i2 :: irest, false)
    else (mergeTokStep ipt mt :: i2 :: irest, false)
  | i2 :: irest, m2 :: mrest, ipt, mt =>
    if mergeTokFail ipt mt then (ipt :: i2 :: irest, false)
    else
      let p := mergeTokLoop irest mrest i2 m2
      (mergeTokStep ipt mt :: p.1, p.2)

/-- Embedding of `merge_netmask` (dbusers.c): if the host has the form
`ip/mask`, rewrite zero mask octets over zero ip octets to `%` and drop
the mask; on any inconsistency the `'/'` is put back (keeping whatever
was already rewritten). -/
def merge_netmask (host : List Char) : List Char :=
  match breakSlash host with
  | (_, none) => host
  | (ipPart, some maskPart) =>
    match splitAll ipPart, splitAll maskPart with
    | ipt :: ipts, mt :: mts =>
      let p := mergeTokLoop ipts mts ipt mt
      if p.2 then joinDots p.1 else joinDots p.1 ++ '/' :: maskPart
    | _, _ => host

/-- State accumulated by the token loop of `normalize_hostname`. -/
structure TokScan where
  outs : List (List Char)
  bits : Nat
  wildcard : Bool
  useorig : Bool
deriving DecidableEq

/-- The token loop of `normalize_hostname`: `i` is the running `bytes`
counter.  A non-`%` token is copied (adding 8 to `bits`, and flagging
`useorig` when its first character is not a digit); a `%` token becomes
`"1"` in the last of four positions and `"0"` otherwise, flagging the
wildcard. -/
def transformToks (i : Nat) : List (List Char) → TokScan
  | [] => { outs := [], bits := 0, wildcard := false, useorig := false }
  | t :: ts =>
    let r := transformToks (i + 1) ts
    if t = ['%'] then
      { outs := (if i = 3 then ['1'] else ['0']) :: r.outs, bits := r.bits,
        wildcard := true, useorig := r.useorig }
    else
      { outs := t :: r.outs, bits := r.bits + 8, wildcard := r.wildcard,
        useorig := r.useorig || !(t.headD ' ').isDigit }

/-- Embedding of `normalize_hostname` (dbusers.c): merge a possible
netmask, tokenise on `'.'` (dropping empty tokens, as `strtok_r` does),
rewrite `%` octets, pad a wildcard result to four octets ending in `1`,
and compute the netmask; a token starting with a non-digit restores the
original input with netmask 32. -/
def nonEmptyTok (t : List Char) : Bool := !t.isEmpty

def normalize_hostname (input : List Char) : List Char × Nat :=
  let toks := (splitAll (merge_netmask input)).filter nonEmptyTok
  let r := transformToks 0 toks
  if r.useorig then (input, 32)
  else if r.wildcard then
    (joinDots (r.outs ++
      (if toks.length < 4 then List.replicate (3 - toks.length) ['0'] ++ [['1']] else [])),
      r.bits)
  else (joinDots r.outs, 32)

/-! #### Structural lemmas about tokenisation -/

theorem splitAll_ne_nil (l : List Char) : splitAll l ≠ [] := by
  cases l with
  | nil => simp [splitAll]
  | cons c t =>
    simp only [splitAll]
    by_cases hc : c = '.'
    · simp [hc]
    · cases splitAll t <;> simp [hc]

theorem joinDots_cons (x : List Char) (ts : List (List Char)) (h : ts ≠ []) :
    joinDots (x :: ts) = x ++ '.' :: joinDots ts := by
  cases ts with
  | nil => exact absurd rfl h
  | cons a b => rfl

theorem joinDots_splitAll (l : List Char) : joinDots (splitAll l) = l := by
  induction l with
  | nil => rfl
  | cons c t ih =>
    simp only [splitAll]
    by_cases hc : c = '.'
    · rw [if_pos hc, joinDots_cons _ _ (splitAll_ne_nil t), ih, hc]
      rfl
    · rw [if_neg hc]
      cases heq : splitAll t with
      | nil => exact absurd heq (splitAll_ne_nil t)
      | cons h r =>
        rw [heq] at ih
        cases r with
        | nil =>
          simp only [joinDots] at ih ⊢
          rw [ih]
        | cons a b =>
          simp only [joinDots, List.cons_append] at ih ⊢
          rw [ih]

theorem splitAll_no_dot (l : List Char) : ∀ t ∈ splitAll l, '.' ∉ t := by
  induction l with
  | nil => intro t ht; simp [splitAll] at ht; simp [ht]
  | cons c q ih =>
    intro t ht
    simp only [splitAll] at ht
    by_cases hc : c = '.'
    · rw [if_pos hc] at ht
      rcases List.mem_cons.mp ht with h | h
      · simp [h]
      · exact ih t h
    · rw [if_neg hc] at ht
      cases heq : splitAll q with
      | nil => exact absurd heq (splitAll_ne_nil q)
      | cons h r =>
        rw [heq] at ht
        rcases List.mem_cons.mp ht with he | he
        · subst he
          intro hd
          rcases List.mem_cons.mp hd with hd | hd
          · exact hc hd.symm
          · exact ih h (heq ▸ List.mem_cons_self h r) hd
        · exact ih t (heq ▸ List.mem_cons_of_mem h he)

theorem mem_of_mem_splitAll (l : List Char) :
    ∀ t ∈ splitAll l, ∀ c ∈ t, c ∈ l := by
  induction l with
  | nil => intro t ht; simp [splitAll] at ht; simp [ht]
  | cons a q ih =>
    intro t ht c hc
    simp only [splitAll] at ht
    by_cases ha : a = '.'
    · rw [if_pos ha] at ht
      rcases List.mem_cons.mp ht with h | h
      · subst h; simp at hc
      · exact List.mem_cons_of_mem a (ih t h c hc)
    · rw [if_neg ha] at ht
      cases heq : splitAll q with
      | nil => exact absurd heq (splitAll_ne_nil q)
      | cons h r =>
        rw [heq] at ht
        rcases List.mem_cons.mp ht with he | he
        · subst he
          rcases List.mem_cons.mp hc with hce | hce
          · simp [hce]
          · exact List.mem_cons_of_mem a (ih h (heq ▸ List.mem_cons_self h r) c hce)
        · exact List.mem_cons_of_mem a (ih t (heq ▸ List.mem_cons_of_mem h he) c hc)

theorem splitAll_of_no_dot (t : List Char) (h : '.' ∉ t) : splitAll t = [t] := by
  induction t with
  | nil => rfl
  | cons c q ih =>
    have hc : c ≠ '.' := fun he => h (by simp [he])
    have hq : '.' ∉ q := fun hm => h (List.mem_cons_of_mem c hm)
    simp only [splitAll, if_neg hc, ih hq]

theorem splitAll_append_dot (t x : List Char) (h : '.' ∉ t) :
    splitAll (t ++ '.' :: x) = t :: splitAll x := by
  induction t with
  | nil => simp [splitAll]
  | cons c q ih =>
    have hc : c ≠ '.' := fun he => h (by simp [he])
    have hq : '.' ∉ q := fun hm => h (List.mem_cons_of_mem c hm)
    simp only [List.cons_append, splitAll, if_neg hc, List.append_eq]
    rw [ih hq]

theorem splitAll_joinDots : ∀ ts : List (List Char), ts ≠ [] →
    (∀ t ∈ ts, '.' ∉ t) → splitAll (joinDots ts) = ts := by
  intro ts
  induction ts with
  | nil => intro h; exact absurd rfl h
  | cons t rest ih =>
    intro _ hd
    cases rest with
    | nil => exact splitAll_of_no_dot t (hd t (by simp))
    | cons a b =>
      rw [joinDots_cons _ _ (by simp),
        splitAll_append_dot _ _ (hd t (by simp)),
        ih (by simp) fun x hx => hd x (List.mem_cons_of_mem t hx)]

theorem mem_joinDots (ts : List (List Char)) :
    ∀ c ∈ joinDots ts, c = '.' ∨ ∃ t ∈ ts, c ∈ t := by
  induction ts with
  | nil => intro c hc; simp [joinDots] at hc
  | cons t rest ih =>
    intro c hc
    cases rest with
    | nil =>
      right
      exact ⟨t, by simp, hc⟩
    | cons a b =>
      rw [joinDots_cons _ _ (by simp)] at hc
      rcases List.mem_append.mp hc with h | h
      · exact Or.inr ⟨t, by simp, h⟩
      · rcases List.mem_cons.mp h with h | h
        · exact Or.inl h
        · rcases ih c h with h | ⟨x, hx, hcx⟩
          · exact Or.inl h
          · exact Or.inr ⟨x, List.mem_cons_of_mem t hx, hcx⟩

theorem breakSlash_of_no_slash (l : List Char) (h : '/' ∉ l) : breakSlash l = (l, none) := by
  induction l with
  | nil => rfl
  | cons c t ih =>
    have hc : c ≠ '/' := fun he => h (by simp [he])
    have ht : '/' ∉ t := fun hm => h (List.mem_cons_of_mem c hm)
    simp [breakSlash, hc, ih ht]

theorem merge_netmask_of_no_slash (l : List Char) (h : '/' ∉ l) : merge_netmask l = l := by
  simp [merge_netmask, breakSlash_of_no_slash l h]

/-! #### The token loop of `normalize_hostname` -/

theorem transform_no_pct : ∀ (ts : List (List Char)) (i : Nat), (∀ t ∈ ts, t ≠ ['%']) →
    (transformToks i ts).outs = ts ∧ (transformToks i ts).wildcard = false := by
  intro ts
  induction ts with
  | nil => intro i _; exact ⟨rfl, rfl⟩
  | cons t rest ih =>
    intro i h
    have hne : t ≠ ['%'] := h t (by simp)
    obtain ⟨h1, h2⟩ := ih (i + 1) fun x hx => h x (List.mem_cons_of_mem t hx)
    simp [transformToks, hne, h1, h2]

theorem transform_digit : ∀ (ts : List (List Char)) (i : Nat),
    (∀ t ∈ ts, t = ['%'] ∨ (t ≠ [] ∧ t.all Char.isDigit = true)) →
    (transformToks i ts).useorig = false ∧
    (transformToks i ts).outs.length = ts.length ∧
    ∀ t ∈ (transformToks i ts).outs, t ≠ [] ∧ t.all Char.isDigit = true := by
  intro ts
  induction ts with
  | nil => intro i _; exact ⟨rfl, rfl, by simp [transformToks]⟩
  | cons t rest ih =>
    intro i h
    obtain ⟨h1, h2, h3⟩ := ih (i + 1) fun x hx => h x (List.mem_cons_of_mem t hx)
    rcases h t (by simp) with hp | ⟨hne, hdig⟩
    · subst hp
      refine ⟨by simp [transformToks, h1], by simp [transformToks, h2], ?_⟩
      intro x hx
      simp only [transformToks, if_pos rfl] at hx
      rcases List.mem_cons.mp hx with he | he
      · subst he
        by_cases hi : i = 3 <;> simp [hi]
      · exact h3 x he
    · have hp : t ≠ ['%'] := by
        intro he
        subst he
        simp at hdig
      have hhead : (t.head?.getD ' ').isDigit = true := by
        cases t with
        | nil => exact absurd rfl hne
        | cons c q =>
          simp only [List.head?_cons, Option.getD_some]
          exact (List.all_eq_true.mp hdig c (by simp))
      refine ⟨?_, by simp [transformToks, hp, h2], ?_⟩
      · simp [transformToks, hp, h1, hhead]
      · intro x hx
        simp only [transformToks, if_neg hp] at hx
        rcases List.mem_cons.mp hx with he | he
        · subst he; exact ⟨hne, hdig⟩
        · exact h3 x he

/-- Any host string without `'/'`, without `'%'` and without empty
octet fields is a fixed point of `normalize_hostname`, with netmask 32. -/
theorem normalize_hostname_fixpoint (H : List Char) (h1 : '/' ∉ H) (h2 : '%' ∉ H)
    (h3 : ∀ t ∈ splitAll H, t ≠ []) : normalize_hostname H = (H, 32) := by
  have hm : merge_netmask H = H := merge_netmask_of_no_slash H h1
  have hfilter : (splitAll H).filter nonEmptyTok = splitAll H := by
    rw [List.filter_eq_self]
    intro a ha
    simpa [nonEmptyTok] using h3 a ha
  have hnp : ∀ t ∈ splitAll H, t ≠ ['%'] := by
    intro t ht he
    exact h2 (mem_of_mem_splitAll H t ht '%' (by simp [he]))
  obtain ⟨ho, hw⟩ := transform_no_pct (splitAll H) 0 hnp
  simp only [normalize_hostname, hm, hfilter]
  by_cases hu : (transformToks 0 (splitAll H)).useorig
  · simp [hu]
  · simp [hu, hw, ho, joinDots_splitAll]

/-- A non-empty dotted join of non-empty all-digit tokens is a fixed
point of `normalize_hostname` with netmask 32. -/
theorem normalize_fix_of_digit_tokens (os : List (List Char)) (hne : os ≠ [])
    (hprop : ∀ t ∈ os, t ≠ [] ∧ t.all Char.isDigit = true) :
    normalize_hostname (joinDots os) = (joinDots os, 32) := by
  have hdots : ∀ t ∈ os, '.' ∉ t := by
    intro t ht hd
    have := List.all_eq_true.mp (hprop t ht).2 '.' hd
    exact absurd this (by decide)
  have hsplit : splitAll (joinDots os) = os := splitAll_joinDots os hne hdots
  have hslash : '/' ∉ joinDots os := by
    intro hm
    rcases mem_joinDots os _ hm with h | ⟨t, ht, hc⟩
    · exact absurd h (by decide)
    · exact absurd (List.all_eq_true.mp (hprop t ht).2 _ hc) (by decide)
  have hpct : '%' ∉ joinDots os := by
    intro hm
    rcases mem_joinDots os _ hm with h | ⟨t, ht, hc⟩
    · exact absurd h (by decide)
    · exact absurd (List.all_eq_true.mp (hprop t ht).2 _ hc) (by decide)
  exact normalize_hostname_fixpoint _ hslash hpct
    (fun t ht => (hprop t (hsplit ▸ ht)).1)

/-- If every (non-empty) octet field of the merged host is `%` or
all-digit, then re-normalising the output of `normalize_hostname` yields
the same string with netmask 32. -/
theorem normalize_second_pass (H : List Char)
    (hts : ∀ t ∈ (splitAll (merge_netmask H)).filter nonEmptyTok,
      t = ['%'] ∨ (t ≠ [] ∧ t.all Char.isDigit = true)) :
    normalize_hostname ((normalize_hostname H).1) = ((normalize_hostname H).1, 32) := by
  obtain ⟨hu, hlen, hprop⟩ :=
    transform_digit ((splitAll (merge_netmask H)).filter nonEmptyTok) 0 hts
  by_cases hwc :
      (transformToks 0 ((splitAll (merge_netmask H)).filter nonEmptyTok)).wildcard = true
  · have htsne : (splitAll (merge_netmask H)).filter nonEmptyTok ≠ [] := by
      intro he
      rw [he] at hwc
      simp [transformToks] at hwc
    have houtsne :
        (transformToks 0 ((splitAll (merge_netmask H)).filter nonEmptyTok)).outs ≠ [] := by
      intro he
      rw [he] at hlen
      exact htsne (List.length_eq_zero.mp hlen.symm)
    have hOeq : (normalize_hostname H).1 =
        joinDots ((transformToks 0 ((splitAll (merge_netmask H)).filter nonEmptyTok)).outs
          ++ (if ((splitAll (merge_netmask H)).filter nonEmptyTok).length < 4 then
            List.replicate (3 - ((splitAll (merge_netmask H)).filter nonEmptyTok).length)
              ['0'] ++ [['1']] else [])) := by
      simp [normalize_hostname, hu, hwc]
    rw [hOeq]
    refine normalize_fix_of_digit_tokens _ (by simp [houtsne]) ?_
    intro t ht
    rcases List.mem_append.mp ht with h | h
    · exact hprop t h
    · by_cases h4 : ((splitAll (merge_netmask H)).filter nonEmptyTok).length < 4
      · rw [if_pos h4] at h
        rcases List.mem_append.mp h with h | h
        · rw [List.eq_of_mem_replicate h]
          exact ⟨by simp, by decide⟩
        · simp only [List.mem_singleton] at h
          rw [h]
          exact ⟨by simp, by decide⟩
      · rw [if_neg h4] at h
        simp at h
  · by_cases htse : (splitAll (merge_netmask H)).filter nonEmptyTok = []
    · have hOeq : (normalize_hostname H).1 = [] := by
        simp [normalize_hostname, htse, transformToks, joinDots]
      rw [hOeq]
      decide
    · have hOeq : (normalize_hostname H).1 =
          joinDots ((transformToks 0 ((splitAll (merge_netmask H)).filter nonEmptyTok)).outs) := by
        simp [normalize_hostname, hu, hwc]
      have houtsne :
          (transformToks 0 ((splitAll (merge_netmask H)).filter nonEmptyTok)).outs ≠ [] := by
        intro he
        rw [he] at hlen
        exact htse (List.length_eq_zero.mp hlen.symm)
      rw [hOeq]
      exact normalize_fix_of_digit_tokens _ houtsne hprop

theorem orE {a b : Bool} (h : (a || b) = true) : a = true ∨ b = true := by
  rcases a <;> rcases b <;> simp_all

theorem andE {a b : Bool} (h : (a && b) = true) : a = true ∧ b = true := by
  rcases a <;> rcases b <;> simp_all

/-- One valid octet pair of a `addr/mask` host: mask octet `255` over an
all-digit address octet, or mask octet `0` over address octet `0`. -/
def validPair (a m : List Char) : Bool :=
  (m == ['2', '5', '5'] && !(a == []) && a.all Char.isDigit) || (m == ['0'] && a == ['0'])

theorem mergeTokFail_255 (ipt : List Char) : mergeTokFail ipt ['2', '5', '5'] = false := by
  simp [mergeTokFail, show (['2', '5', '5'].isPrefixOf ['2', '5', '5']) = true from by decide]

theorem mergeTokStep_255 (ipt : List Char) : mergeTokStep ipt ['2', '5', '5'] = ipt := by
  simp [mergeTokStep, show (['2', '5', '5'].isPrefixOf ['2', '5', '5']) = true from by decide]

theorem mergeTokFail_00 : mergeTokFail ['0'] ['0'] = false := by decide

theorem mergeTokStep_00 : mergeTokStep ['0'] ['0'] = ['%'] := by decide

theorem mergeTokLoop_ok : ∀ (ipts mts : List (List Char)) (ipt mt : List Char),
    validPair ipt mt = true → ipts.length = mts.length →
    (∀ p ∈ ipts.zip mts, validPair p.1 p.2 = true) →
    ∃ os, mergeTokLoop ipts mts ipt mt = (os, true) ∧ os ≠ [] ∧
      ∀ t ∈ os, t = ['%'] ∨ (t ≠ [] ∧ t.all Char.isDigit = true) := by
  intro ipts
  induction ipts with
  | nil =>
    intro mts ipt mt hp hlen _
    have hmts : mts = [] := List.length_eq_zero.mp hlen.symm
    subst hmts
    rcases orE hp with h1 | h2
    · obtain ⟨h11, h13⟩ := andE h1
      obtain ⟨h11, h12⟩ := andE h11
      have hm : mt = ['2', '5', '5'] := by simpa using h11
      have ha1 : ipt ≠ [] := by simpa using h12
      subst hm
      refine ⟨[ipt], by simp [mergeTokLoop, mergeTokFail_255, mergeTokStep_255], by simp, ?_⟩
      intro t ht
      simp only [List.mem_singleton] at ht
      subst ht
      exact Or.inr ⟨ha1, h13⟩
    · obtain ⟨h21, h22⟩ := andE h2
      have hm : mt = ['0'] := by simpa using h21
      have ha : ipt = ['0'] := by simpa using h22
      subst hm
      subst ha
      exact ⟨[['%']], by simp [mergeTokLoop, mergeTokFail_00, mergeTokStep_00], by simp, by simp⟩
  | cons i2 irest ih =>
    intro mts ipt mt hp hlen hall
    cases mts with
    | nil => simp at hlen
    | cons m2 mrest =>
      have hlen2 : irest.length = mrest.length := by simpa using hlen
      have hhead : validPair i2 m2 = true := hall (i2, m2) (by simp)
      have hrest : ∀ p ∈ irest.zip mrest, validPair p.1 p.2 = true := by
        intro p hpm
        exact hall p (by simp [hpm])
      obtain ⟨os, hml, hosne, hosprop⟩ := ih mrest i2 m2 hhead hlen2 hrest
      rcases orE hp with h1 | h2
      · obtain ⟨h11, h13⟩ := andE h1
        obtain ⟨h11, h12⟩ := andE h11
        have hm : mt = ['2', '5', '5'] := by simpa using h11
        have ha1 : ipt ≠ [] := by simpa using h12
        subst hm
        refine ⟨ipt :: os, by simp [mergeTokLoop, mergeTokFail_255, mergeTokStep_255, hml], by simp, ?_⟩
        intro t ht
        rcases List.mem_cons.mp ht with he | he
        · subst he
          exact Or.inr ⟨ha1, h13⟩
        · exact hosprop t he
      · obtain ⟨h21, h22⟩ := andE h2
        have hm : mt = ['0'] := by simpa using h21
        have ha : ipt = ['0'] := by simpa using h22
        subst hm
        subst ha
        refine ⟨['%'] :: os, by simp [mergeTokLoop, mergeTokFail_00, mergeTokStep_00, hml], by simp, ?_⟩
        intro t ht
        rcases List.mem_cons.mp ht with he | he
        · subst he
          exact Or.inl rfl
        · exact hosprop t he

/-! #### Valid host shapes (spec §4.1) -/

/-- Spec row "dotted IPv4, no wildcard", "IPv4 shape containing `_`" and
"anything else containing non-digit/non-dot" (literal hostnames): no
`'/'`, no `'%'`, and no empty octet field. -/
def formA (H : List Char) : Bool :=
  !(H.contains '/') && !(H.contains '%') && (splitAll H).all fun t => !t.isEmpty

/-- Spec rows "`%`" and "IPv4 with trailing `%` octets" (including the
short forms): every dot-separated field is `%` or a non-empty digit
string. -/
def formB (H : List Char) : Bool :=
  (splitAll H).all fun t => t == ['%'] || (!t.isEmpty && t.all Char.isDigit)

/-- Spec row "`addr/mask` where every mask octet is `255` or `0`": the
two halves have the same number of fields and each pair is a
`validPair`. -/
def formC (H : List Char) : Bool :=
  match breakSlash H with
  | (_, none) => false
  | (ip, some mask) =>
    ((splitAll ip).length == (splitAll mask).length) &&
    ((splitAll ip).zip (splitAll mask)).all fun p => validPair p.1 p.2

/-- A host string of one of the shapes of the spec's §4.1 table. -/
def validHost (H : List Char) : Bool := formA H || formB H || formC H

theorem formC_tokens (H : List Char) (hC : formC H = true) :
    ∀ t ∈ (splitAll (merge_netmask H)).filter nonEmptyTok,
      t = ['%'] ∨ (t ≠ [] ∧ t.all Char.isDigit = true) := by
  cases hbs : breakSlash H with
  | mk ip omask =>
    cases omask with
    | none => simp [formC, hbs] at hC
    | some mask =>
      rw [formC] at hC
      rw [hbs] at hC
      obtain ⟨hlen, hall⟩ := andE hC
      cases hip : splitAll ip with
      | nil => exact absurd hip (splitAll_ne_nil ip)
      | cons ipt ipts =>
        cases hmk : splitAll mask with
        | nil => exact absurd hmk (splitAll_ne_nil mask)
        | cons mt mts =>
          rw [hip, hmk] at hlen hall
          have hplen : ipts.length = mts.length := by
            have h' : (ipt :: ipts).length = (mt :: mts).length := by simpa using hlen
            simpa using h'
          have hhead : validPair ipt mt = true :=
            List.all_eq_true.mp hall (ipt, mt) (by simp)
          have hrest : ∀ p ∈ ipts.zip mts, validPair p.1 p.2 = true := by
            intro p hpm
            exact List.all_eq_true.mp hall p (by simp [hpm])
          obtain ⟨os, hml, hosne, hosprop⟩ := mergeTokLoop_ok ipts mts ipt mt hhead hplen hrest
          have hmerge : merge_netmask H = joinDots os := by
            simp only [merge_netmask, hbs]
            rw [hip, hmk]
            simp [hml]
          have hdots : ∀ t ∈ os, '.' ∉ t := by
            intro t ht hd
            rcases hosprop t ht with he | ⟨_, hdig⟩
            · subst he
              simp only [List.mem_singleton] at hd
              exact absurd hd (by decide)
            · exact absurd (List.all_eq_true.mp hdig _ hd) (by decide)
          have hsplit : splitAll (merge_netmask H) = os := by
            rw [hmerge]
            exact splitAll_joinDots os hosne hdots
          rw [hsplit]
          intro t ht
          exact hosprop t (List.mem_of_mem_filter ht)

/-- C8 (counterexample): for the valid wildcard host `10.0.0.%` a single
normalisation yields `("10.0.0.1", 24)`, but normalising the output
string again yields netmask 32, so canonicalisation is not idempotent as
claimed. -/
theorem normalize_hostname_not_idempotent :
    normalize_hostname ((normalize_hostname "10.0.0.%".toList).1)
      ≠ normalize_hostname "10.0.0.%".toList := by decide

/-- C8 (amended): for every valid host string, re-normalising the output
string reproduces the same output string, but always with netmask 32 —
so the full `(string, netmask)` pair is idempotent exactly when the
first pass already returned netmask 32, while wildcard patterns keep
the string and lose the prefix length. -/
theorem normalize_hostname_idem_amended (H : List Char) (h : validHost H = true) :
    normalize_hostname ((normalize_hostname H).1) = ((normalize_hostname H).1, 32) := by
  rcases orE h with hAB | hC
  · rcases orE hAB with hA | hB
    · -- formA: H itself is a fixed point
      obtain ⟨hA1, hA3⟩ := andE hA
      obtain ⟨hA1, hA2⟩ := andE hA1
      have h1 : '/' ∉ H := by simpa using hA1
      have h2 : '%' ∉ H := by simpa using hA2
      have h3 : ∀ t ∈ splitAll H, t ≠ [] := by
        intro t ht
        have := List.all_eq_true.mp hA3 t ht
        simpa using this
      have hfix := normalize_hostname_fixpoint H h1 h2 h3
      rw [hfix]
      simpa using hfix
    · -- formB: fields are % or digits already
      have htok : ∀ t ∈ splitAll H, t = ['%'] ∨ (t ≠ [] ∧ t.all Char.isDigit = true) := by
        intro t ht
        have := List.all_eq_true.mp hB t ht
        rcases orE this with h | h
        · exact Or.inl (by simpa using h)
        · obtain ⟨he, hd⟩ := andE h
          exact Or.inr ⟨by simpa using he, hd⟩
      have hslash : '/' ∉ H := by
        intro hm
        rw [← joinDots_splitAll H] at hm
        rcases mem_joinDots _ _ hm with he | ⟨t, ht, hc⟩
        · exact absurd he (by decide)
        · rcases htok t ht with he | ⟨_, hdig⟩
          · subst he
            simp only [List.mem_singleton] at hc
            exact absurd hc (by decide)
          · exact absurd (List.all_eq_true.mp hdig _ hc) (by decide)
      refine normalize_second_pass H ?_
      rw [merge_netmask_of_no_slash H hslash]
      intro t ht
      exact htok t (List.mem_of_mem_filter ht)
  · exact normalize_second_pass H (formC_tokens H hC)

/-- C8 (witness). -/
theorem normalize_hostname_idem_amended_witness :
    validHost "10.0.0.%".toList = true ∧
    normalize_hostname ((normalize_hostname "10.0.0.%".toList).1)
      = ((normalize_hostname "10.0.0.%".toList).1, 32) :=
  ⟨by decide, normalize_hostname_idem_amended _ (by decide)⟩

/-- C5 (witness). -/
theorem uh_cmpfun_database_rule_witness :
    (32 ≥ 24) ∧ ("sales".toList ≠ []) ∧
    (¬ ("sales".toList).contains '%' = true →
      ((uh_cmpfun (fun _ _ => false)
        { user := some "bob".toList, ipv4 := ipv4enc 10 0 0 0, netmask := 32,
          resource := some "sales".toList, hostname := [] }
        { user := some "bob".toList, ipv4 := ipv4enc 10 0 0 0, netmask := 24,
          resource := some "sales".toList, hostname := [] } = 0)
        ↔ ("sales".toList = [] ∨ "sales".toList = "sales".toList))) :=
  ⟨by decide, by decide,
    ((uh_cmpfun_database_rule (fun _ _ => false) "bob".toList (ipv4enc 10 0 0 0) 32 24
      (by decide) "sales".toList (by decide)).1 "sales".toList)⟩

end Dbusers
